import Mathlib

/-!
# Verification of the NBA MVP pipeline (`src/nba_mvp.py`)

Shallow embedding of the stat-extraction-and-ranking pipeline:

* raw scraped rows (`RawRow`) and the normalizer `get_player_stats`;
* the ranking engine `calculate_mvp` (stable descending sorts by Python's
  `sorted(..., key=..., reverse=True)`);
* the filter stage `filter_players` built on `re.search(pat, name, re.IGNORECASE)`.

Python exceptions (`IndexError` from out-of-range list access, `ValueError`
from a failed `float()` parse) are modelled with `Except PyError`.  Numeric
values are modelled as exact rationals `ℚ`; the numeric strings the program
actually handles are plain decimal literals, on which `float()` is exact.
-/

/-- The two runtime exceptions the script can raise while processing data:
`IndexError` from an out-of-range list subscript and `ValueError` from a
failed `float()` conversion. -/
inductive PyError where
  | indexError
  | valueError
deriving DecidableEq, Repr

/-- One scraped row, after pairing a name row with a stat row
(the `zip(name_rows, stat_rows[1:])` of `get_player_stats`):
`nameLink` is the text of the `AnchorLink` element when present, and
`columns` is the list of `td` cell texts (already stripped). -/
structure RawRow where
  nameLink : Option String
  columns : List String
deriving DecidableEq, Repr

/-- The dictionary appended to `player_stats` for one accepted row: the
player's name plus the five numeric stats, all kept as display strings
(the source performs no numeric parsing at extraction time). -/
structure StatRow where
  player : String
  points : String
  field_goal_percentage : String
  three_point_percentage : String
  rebounds : String
  assists : String
deriving DecidableEq, Repr

/-- Numeric value of a list of decimal digit characters, most significant
first (used to model `float()` on decimal literals). -/
def digitsVal (cs : List Char) : Nat :=
  cs.foldl (fun n c => 10 * n + (c.toNat - '0'.toNat)) 0

/-- Models Python's builtin `float()` on an unsigned decimal literal:
an optional integer part, an optional `'.'`, and an optional fraction part,
with at least one digit overall.  The value `ip.fp` is the exact rational
`(ip * 10^|fp| + fp) / 10^|fp|`, built with `mkRat` so that it evaluates
inside the kernel.  Returns `none` exactly when `float()` raises
`ValueError` on such input. -/
def pyFloatUnsigned (cs : List Char) : Option ℚ :=
  let ip := cs.takeWhile (fun c => c ≠ '.')
  let rest := cs.dropWhile (fun c => c ≠ '.')
  match rest with
  | [] =>
      if ip.isEmpty then none
      else if ip.all Char.isDigit then some (mkRat (digitsVal ip) 1) else none
  | _ :: fp =>
      if ip.isEmpty && fp.isEmpty then none
      else if ip.all Char.isDigit && fp.all Char.isDigit && fp.all (fun c => c ≠ '.') then
        some (mkRat (digitsVal ip * 10 ^ fp.length + digitsVal fp) (10 ^ fp.length))
      else none

/-- Models Python's builtin `float()` (which is not part of this repository)
on the decimal-literal strings the scraped stat cells contain: an optional
sign followed by an unsigned decimal literal.  `none` models a raised
`ValueError`. -/
def pyFloat (s : String) : Option ℚ :=
  match s.data with
  | '+' :: r => pyFloatUnsigned r
  | '-' :: r => (pyFloatUnsigned r).map (fun q => -q)
  | r => pyFloatUnsigned r

/-- Embeds `get_player_stats` (src/nba_mvp.py lines 26-51), starting from the
already-zipped row pairs.  For each row: if `len(columns) < 9` the row is
skipped (`continue`); otherwise the cells at positions 3, 6, 9, 13, 14 are
read — an access past the end raises `IndexError`, which propagates out of
the function — and a stat dictionary is appended, with the name defaulting
to `"N/A"` when the anchor element is missing. -/
def get_player_stats : List RawRow → Except PyError (List StatRow)
  | [] => .ok []
  | r :: rest =>
    if r.columns.length < 9 then get_player_stats rest
    else
      match r.columns[3]?, r.columns[6]?, r.columns[9]?, r.columns[13]?, r.columns[14]? with
      | some pts, some fg, some tp, some reb, some ast =>
          (get_player_stats rest).map (fun l =>
            { player := r.nameLink.getD "N/A"
              points := pts
              field_goal_percentage := fg
              three_point_percentage := tp
              rebounds := reb
              assists := ast } :: l)
      | _, _, _, _, _ => .error .indexError

/-- Rational addition through `mkRat`, so that sums of concrete keys
evaluate inside the kernel; `qadd_eq_add` below proves it is `(· + ·)`. -/
def qadd (x y : ℚ) : ℚ := mkRat (x.num * y.den + y.num * x.den) (x.den * y.den)

/-- The key of the overall sort (line 71):
`sum(float(p[key]) for key in p.keys() if key != 'Player')`, i.e. the five
numeric fields parsed and summed in dictionary insertion order; the first
failed parse raises `ValueError`. -/
def overallKey (p : StatRow) : Option ℚ := do
  let a ← pyFloat p.points
  let b ← pyFloat p.field_goal_percentage
  let c ← pyFloat p.three_point_percentage
  let d ← pyFloat p.rebounds
  let e ← pyFloat p.assists
  pure (qadd (qadd (qadd (qadd a b) c) d) e)

/-- Models CPython's `sorted(..., key=f)` key-computation pass: the key of
every element is computed, in list order, before any comparison; a failed
parse aborts with `ValueError`. -/
def computeKeys {α : Type} (f : α → Option ℚ) : List α → Except PyError (List (α × ℚ))
  | [] => .ok []
  | p :: ps =>
    match f p with
    | none => .error .valueError
    | some q => (computeKeys f ps).map (fun l => (p, q) :: l)

/-- Stable descending insertion: `x` is placed before the first element whose
key does not exceed `k x`, so an earlier element precedes later elements of
equal key — the tie behaviour of Python's stable `sorted(..., reverse=True)`. -/
def insertDesc {α : Type} (k : α → ℚ) (x : α) : List α → List α
  | [] => [x]
  | y :: ys => if k y ≤ k x then x :: y :: ys else y :: insertDesc k x ys

/-- Stable sort, descending by key: the semantics of Python's
`sorted(..., key=..., reverse=True)`. -/
def sortDesc {α : Type} (k : α → ℚ) : List α → List α
  | [] => []
  | x :: xs => insertDesc k x (sortDesc k xs)

/-- `sorted(player_stats, key=f, reverse=True)`: compute all keys (possibly
raising `ValueError`), stably sort descending on the key, return the rows. -/
def sortedByKey (f : StatRow → Option ℚ) (l : List StatRow) :
    Except PyError (List StatRow) :=
  (computeKeys f l).map (fun ps => (sortDesc Prod.snd ps).map Prod.fst)

/-- Embeds `calculate_mvp` (src/nba_mvp.py lines 54-76): sort by parsed
points descending, truncate to `top_count`; sort by the summed overall key
descending; then take the elements at positions 0, 1 and 2 of the overall
ranking — an out-of-range subscript raises `IndexError`. -/
def calculate_mvp (player_stats : List StatRow) (top_count : Nat) :
    Except PyError (List StatRow × StatRow × StatRow × StatRow) :=
  match sortedByKey (fun p => pyFloat p.points) player_stats with
  | .error e => .error e
  | .ok sorted_players_by_points =>
    let top_players := sorted_players_by_points.take top_count
    match sortedByKey overallKey player_stats with
    | .error e => .error e
    | .ok sorted_players_by_overall =>
      match sorted_players_by_overall with
      | best_player :: second_place :: third_place :: _ =>
          .ok (top_players, best_player, second_place, third_place)
      | _ => .error .indexError

/-- The `top_by_points` product of the ranking engine, exactly lines 68-69 of
`calculate_mvp`: sort descending by parsed points, truncate to `top_count`. -/
def top_by_points (player_stats : List StatRow) (top_count : Nat) :
    Except PyError (List StatRow) :=
  (sortedByKey (fun p => pyFloat p.points) player_stats).map
    (fun s => s.take top_count)

/-- ASCII lower-casing of one character, the case folding `re.IGNORECASE`
applies to the ASCII pattern and names involved here. -/
def lowerChar (c : Char) : Char :=
  if 'A' ≤ c ∧ c ≤ 'Z' then Char.ofNat (c.toNat + 32) else c

/-- Lower-case a character list. -/
def strLower (cs : List Char) : List Char := cs.map lowerChar

/-- `startsList pat s`: `pat` is an initial segment of `s`. -/
def startsList : List Char → List Char → Bool
  | [], _ => true
  | _ :: _, [] => false
  | a :: as, b :: bs => a == b && startsList as bs

/-- Unanchored search: some suffix of `s` starts with `pat`. -/
def searchSub (pat : List Char) : List Char → Bool
  | [] => startsList pat []
  | c :: cs => startsList pat (c :: cs) || searchSub pat cs

/-- Models `re.search(pattern, s, re.IGNORECASE)` (the `re` module is not
part of this repository) for literal, metacharacter-free patterns — the
sole patterns this spec exercises: an unanchored, case-insensitive
substring search, returning whether a match exists. -/
def re_search_ci (pat s : String) : Bool :=
  searchSub (strLower pat.data) (strLower s.data)

/-- Embeds `filter_players` (src/nba_mvp.py lines 79-96): walk the rows in
order, appending to the result exactly those whose `'Player'` entry matches
the pattern case-insensitively. -/
def filter_players : List StatRow → String → List StatRow
  | [], _ => []
  | p :: ps, pat =>
    if re_search_ci pat p.player then p :: filter_players ps pat
    else filter_players ps pat

/-- Embeds the filter step of `__main__` (lines 107-108): `filter_players`
runs only when the pattern is non-empty, so an absent/empty pattern leaves
the row list untouched. -/
def main_filter_stage (stats : List StatRow) (pat : String) : List StatRow :=
  if pat = "" then stats else filter_players stats pat

/-! ## Concrete rows used in the worked examples -/

/-- Player A of the spec's ranking example. -/
def rowA : StatRow := ⟨"A", "30", "50", "40", "10", "5"⟩

/-- Player B of the spec's ranking example. -/
def rowB : StatRow := ⟨"B", "25", "60", "45", "12", "8"⟩

/-- Player C of the spec's ranking example. -/
def rowC : StatRow := ⟨"C", "20", "40", "30", "5", "3"⟩

/-- A player named "LeBron King", for the case-insensitivity example. -/
def lebron : StatRow := ⟨"LeBron King", "1", "2", "3", "4", "5"⟩

/-- A scraped row with exactly nine cell fields. -/
def rawNine : RawRow :=
  ⟨some "Nine", ["c0", "c1", "c2", "3", "c4", "c5", "6", "c7", "c8"]⟩

/-- A scraped row with only eight cell fields. -/
def rawEight : RawRow :=
  ⟨some "Short", ["c0", "c1", "c2", "c3", "c4", "c5", "c6", "c7"]⟩

/-- A scraped row with fifteen cell fields, all relevant ones numeric. -/
def rawFull : RawRow :=
  ⟨some "Full",
    ["0", "1", "2", "33", "4", "5", "44.5", "7", "8", "37.1", "10", "11", "12", "7.5", "6.25"]⟩

/-- The stat dictionary extracted from `rawFull`. -/
def statFull : StatRow := ⟨"Full", "33", "44.5", "37.1", "7.5", "6.25"⟩

/-- A fifteen-cell scraped row whose points cell is the unparsable `"abc"`. -/
def rawBad : RawRow :=
  ⟨some "Bad",
    ["0", "1", "2", "abc", "4", "5", "44.5", "7", "8", "37.1", "10", "11", "12", "7.5", "6.25"]⟩

/-- The stat dictionary extracted from `rawBad`: its points field is `"abc"`. -/
def statBad : StatRow := ⟨"Bad", "abc", "44.5", "37.1", "7.5", "6.25"⟩

/-- Parsed points value with default 0, used to instantiate key-function
hypotheses at concrete rows whose points all parse. -/
def kptsW : StatRow → ℚ := fun p => (pyFloat p.points).getD 0

/-- Parsed field-goal percentage with default 0. -/
def kfgW : StatRow → ℚ := fun p => (pyFloat p.field_goal_percentage).getD 0

/-- Parsed three-point percentage with default 0. -/
def ktpW : StatRow → ℚ := fun p => (pyFloat p.three_point_percentage).getD 0

/-- Parsed rebounds value with default 0. -/
def krebW : StatRow → ℚ := fun p => (pyFloat p.rebounds).getD 0

/-- Parsed assists value with default 0. -/
def kastW : StatRow → ℚ := fun p => (pyFloat p.assists).getD 0

/-- Overall-sum key with default 0. -/
def koverW : StatRow → ℚ := fun p => (overallKey p).getD 0


/-! ## Properties of the stable descending sort -/

theorem qadd_eq_add (x y : ℚ) : qadd x y = x + y := by
  unfold qadd
  rw [Rat.mkRat_eq_div]
  conv_rhs => rw [← Rat.num_div_den x, ← Rat.num_div_den y]
  rw [div_add_div _ _ (by exact_mod_cast x.den_nz) (by exact_mod_cast y.den_nz)]
  push_cast
  ring_nf

theorem insertDesc_perm {α : Type} (k : α → ℚ) (x : α) (l : List α) :
    List.Perm (insertDesc k x l) (x :: l) := by
  induction l with
  | nil => simp [insertDesc]
  | cons y ys ih =>
    by_cases h : k y ≤ k x
    · simp [insertDesc, h]
    · simp only [insertDesc, if_neg h]
      exact (ih.cons y).trans (List.Perm.swap x y ys)

theorem sortDesc_perm {α : Type} (k : α → ℚ) (l : List α) :
    List.Perm (sortDesc k l) l := by
  induction l with
  | nil => simp [sortDesc]
  | cons x xs ih =>
    exact (insertDesc_perm k x (sortDesc k xs)).trans (ih.cons x)

theorem insertDesc_pairwise {α : Type} (k : α → ℚ) (x : α) {l : List α}
    (h : l.Pairwise (fun a b => k b ≤ k a)) :
    (insertDesc k x l).Pairwise (fun a b => k b ≤ k a) := by
  induction l with
  | nil => simp [insertDesc]
  | cons y ys ih =>
    rcases List.pairwise_cons.mp h with ⟨hy, hys⟩
    by_cases hxy : k y ≤ k x
    · simp only [insertDesc, if_pos hxy]
      refine List.pairwise_cons.mpr ⟨?_, h⟩
      intro z hz
      rcases List.mem_cons.mp hz with rfl | hz'
      · exact hxy
      · exact le_trans (hy z hz') hxy
    · simp only [insertDesc, if_neg hxy]
      refine List.pairwise_cons.mpr ⟨?_, ih hys⟩
      intro z hz
      have hz' : z = x ∨ z ∈ ys :=
        List.mem_cons.mp ((insertDesc_perm k x ys).mem_iff.mp hz)
      rcases hz' with rfl | hz'
      · exact le_of_lt (lt_of_not_le hxy)
      · exact hy z hz'

theorem sortDesc_pairwise {α : Type} (k : α → ℚ) (l : List α) :
    (sortDesc k l).Pairwise (fun a b => k b ≤ k a) := by
  induction l with
  | nil => simp [sortDesc]
  | cons x xs ih => exact insertDesc_pairwise k x ih

theorem insertDesc_filter_pos {α : Type} (k : α → ℚ) (x : α) (l : List α)
    {c : ℚ} (h : k x = c) :
    (insertDesc k x l).filter (fun a => decide (k a = c)) =
      x :: l.filter (fun a => decide (k a = c)) := by
  subst h
  induction l with
  | nil => simp [insertDesc]
  | cons y ys ih =>
    by_cases hxy : k y ≤ k x
    · simp [insertDesc, hxy]
    · have hyc : ¬ (k y = k x) := fun hc => hxy (le_of_eq hc)
      simp [insertDesc, hxy, List.filter_cons, hyc, ih]

theorem insertDesc_filter_neg {α : Type} (k : α → ℚ) (x : α) (l : List α)
    {c : ℚ} (h : ¬ (k x = c)) :
    (insertDesc k x l).filter (fun a => decide (k a = c)) =
      l.filter (fun a => decide (k a = c)) := by
  induction l with
  | nil => simp [insertDesc, h]
  | cons y ys ih =>
    by_cases hxy : k y ≤ k x
    · simp [insertDesc, hxy, List.filter_cons, h]
    · simp [insertDesc, hxy, List.filter_cons, ih]

theorem sortDesc_filter {α : Type} (k : α → ℚ) (l : List α) (c : ℚ) :
    (sortDesc k l).filter (fun a => decide (k a = c)) =
      l.filter (fun a => decide (k a = c)) := by
  induction l with
  | nil => simp [sortDesc]
  | cons x xs ih =>
    by_cases h : k x = c
    · rw [show sortDesc k (x :: xs) = insertDesc k x (sortDesc k xs) from rfl,
        insertDesc_filter_pos k x _ h, ih, List.filter_cons, if_pos (by simpa using h)]
    · rw [show sortDesc k (x :: xs) = insertDesc k x (sortDesc k xs) from rfl,
        insertDesc_filter_neg k x _ h, ih, List.filter_cons, if_neg (by simpa using h)]

theorem sortDesc_eq_of_perm {α : Type} (k : α → ℚ) {l₁ l₂ : List α}
    (hp : List.Perm l₁ l₂) (hd : l₁.Pairwise (fun a b => k a ≠ k b)) :
    sortDesc k l₁ = sortDesc k l₂ := by
  haveI : IsAntisymm α (fun a b => k b < k a) :=
    ⟨fun a b h₁ h₂ => absurd (lt_trans h₁ h₂) (lt_irrefl _)⟩
  have hperm : List.Perm (sortDesc k l₁) (sortDesc k l₂) :=
    (sortDesc_perm k l₁).trans (hp.trans (sortDesc_perm k l₂).symm)
  have hne : ∀ {x y : α}, k x ≠ k y → k y ≠ k x := fun h => Ne.symm h
  have hd₁ : (sortDesc k l₁).Pairwise (fun a b => k a ≠ k b) :=
    ((sortDesc_perm k l₁).pairwise_iff hne).mpr hd
  have hd₂ : (sortDesc k l₂).Pairwise (fun a b => k a ≠ k b) :=
    ((sortDesc_perm k l₂).pairwise_iff hne).mpr ((hp.pairwise_iff hne).mp hd)
  have hs₁ : (sortDesc k l₁).Pairwise (fun a b => k b < k a) :=
    ((sortDesc_pairwise k l₁).and hd₁).imp
      (fun hab => lt_of_le_of_ne hab.1 (Ne.symm hab.2))
  have hs₂ : (sortDesc k l₂).Pairwise (fun a b => k b < k a) :=
    ((sortDesc_pairwise k l₂).and hd₂).imp
      (fun hab => lt_of_le_of_ne hab.1 (Ne.symm hab.2))
  exact List.eq_of_perm_of_sorted hperm hs₁ hs₂

theorem insertDesc_map_pair {α : Type} (g : α → ℚ) (x : α) (l : List α) :
    insertDesc (fun q : α × ℚ => q.2) (x, g x) (l.map (fun p => (p, g p))) =
      (insertDesc g x l).map (fun p => (p, g p)) := by
  induction l with
  | nil => simp [insertDesc]
  | cons y ys ih =>
    by_cases h : g y ≤ g x
    · simp [insertDesc, h]
    · simp [insertDesc, h, ih]

theorem sortDesc_map_pair {α : Type} (g : α → ℚ) (l : List α) :
    sortDesc (fun q : α × ℚ => q.2) (l.map (fun p => (p, g p))) =
      (sortDesc g l).map (fun p => (p, g p)) := by
  induction l with
  | nil => simp [sortDesc]
  | cons x xs ih =>
    simp only [List.map_cons]
    rw [show sortDesc (fun q : α × ℚ => q.2) ((x, g x) :: xs.map (fun p => (p, g p))) =
        insertDesc (fun q : α × ℚ => q.2) (x, g x)
          (sortDesc (fun q : α × ℚ => q.2) (xs.map (fun p => (p, g p)))) from rfl,
      ih, show sortDesc g (x :: xs) = insertDesc g x (sortDesc g xs) from rfl,
      insertDesc_map_pair]

theorem computeKeys_ok_of_forall {α : Type} (f : α → Option ℚ) (g : α → ℚ)
    {l : List α} (h : ∀ p ∈ l, f p = some (g p)) :
    computeKeys f l = .ok (l.map (fun p => (p, g p))) := by
  induction l with
  | nil => simp [computeKeys]
  | cons p ps ih =>
    have hp : f p = some (g p) := h p (List.mem_cons_self p ps)
    have hps : computeKeys f ps = .ok (ps.map (fun q => (q, g q))) :=
      ih (fun q hq => h q (List.mem_cons_of_mem p hq))
    simp [computeKeys, hp, hps, Except.map]

theorem computeKeys_ok_map_fst {α : Type} (f : α → Option ℚ)
    {l : List α} {ps : List (α × ℚ)} (h : computeKeys f l = .ok ps) :
    ps.map Prod.fst = l := by
  induction l generalizing ps with
  | nil =>
    simp only [computeKeys] at h
    cases h
    rfl
  | cons p l' ih =>
    simp only [computeKeys] at h
    cases hf : f p with
    | none => rw [hf] at h; cases h
    | some q =>
      rw [hf] at h
      cases hck : computeKeys f l' with
      | error e => rw [hck] at h; cases h
      | ok ps' =>
        rw [hck] at h
        simp only [Except.map] at h
        cases h
        simp [ih hck]

theorem sortedByKey_ok_of_forall (f : StatRow → Option ℚ) (g : StatRow → ℚ)
    {l : List StatRow} (h : ∀ p ∈ l, f p = some (g p)) :
    sortedByKey f l = .ok (sortDesc g l) := by
  unfold sortedByKey
  rw [computeKeys_ok_of_forall f g h]
  simp only [Except.map, sortDesc_map_pair, List.map_map]
  congr 1
  exact List.map_id _

theorem sortedByKey_ok_mem (f : StatRow → Option ℚ)
    {l res : List StatRow} (h : sortedByKey f l = .ok res) :
    ∀ p ∈ res, p ∈ l := by
  unfold sortedByKey at h
  cases hck : computeKeys f l with
  | error e => rw [hck] at h; cases h
  | ok ps =>
    rw [hck] at h
    simp only [Except.map] at h
    cases h
    intro p hp
    rcases List.mem_map.mp hp with ⟨q, hq, rfl⟩
    have hq' : q ∈ ps := (sortDesc_perm (fun r : StatRow × ℚ => r.2) ps).subset hq
    have : q.1 ∈ ps.map Prod.fst := List.mem_map.mpr ⟨q, hq', rfl⟩
    rwa [computeKeys_ok_map_fst f hck] at this

/-! ## Properties of the case-insensitive search and the filter stage -/

theorem startsList_iff (pat : List Char) :
    ∀ s : List Char, startsList pat s = true ↔ ∃ r, s = pat ++ r := by
  induction pat with
  | nil =>
    intro s
    simp [startsList]
  | cons a as ih =>
    intro s
    cases s with
    | nil =>
      simp [startsList]
    | cons b bs =>
      simp only [startsList, Bool.and_eq_true, beq_iff_eq, ih bs, List.cons_append,
        List.cons.injEq]
      constructor
      · rintro ⟨rfl, r, rfl⟩
        exact ⟨r, rfl, rfl⟩
      · rintro ⟨r, rfl, rfl⟩
        exact ⟨rfl, r, rfl⟩

theorem searchSub_iff (pat s : List Char) :
    searchSub pat s = true ↔ ∃ u v, s = u ++ pat ++ v := by
  induction s with
  | nil =>
    simp only [searchSub, startsList_iff]
    constructor
    · rintro ⟨r, hr⟩
      exact ⟨[], r, by simpa using hr⟩
    · rintro ⟨u, v, huv⟩
      rcases List.append_eq_nil.mp (huv.symm) with ⟨h1, h2⟩
      rcases List.append_eq_nil.mp h1 with ⟨h3, h4⟩
      exact ⟨v, by simp [h4, h2]⟩
  | cons c cs ih =>
    simp only [searchSub, Bool.or_eq_true, startsList_iff, ih]
    constructor
    · rintro (⟨r, hr⟩ | ⟨u, v, huv⟩)
      · exact ⟨[], r, by simpa using hr⟩
      · exact ⟨c :: u, v, by simp [huv]⟩
    · rintro ⟨u, v, huv⟩
      cases u with
      | nil =>
        exact Or.inl ⟨v, by simpa using huv⟩
      | cons d ds =>
        simp only [List.cons_append, List.cons.injEq] at huv
        exact Or.inr ⟨ds, v, huv.2⟩

theorem searchSub_nil_pat (s : List Char) : searchSub [] s = true := by
  induction s with
  | nil => rfl
  | cons c cs ih => simp [searchSub, startsList]

theorem re_search_ci_iff (pat s : String) :
    re_search_ci pat s = true ↔
      ∃ u v, strLower s.data = u ++ strLower pat.data ++ v :=
  searchSub_iff _ _

theorem mem_filter_players (l : List StatRow) (pat : String) (p : StatRow) :
    p ∈ filter_players l pat ↔ p ∈ l ∧ re_search_ci pat p.player = true := by
  induction l with
  | nil => simp [filter_players]
  | cons q qs ih =>
    by_cases h : re_search_ci pat q.player = true
    · simp only [filter_players, if_pos h, List.mem_cons, ih]
      constructor
      · rintro (rfl | ⟨hp, hpred⟩)
        · exact ⟨Or.inl rfl, h⟩
        · exact ⟨Or.inr hp, hpred⟩
      · rintro ⟨rfl | hp, hpred⟩
        · exact Or.inl rfl
        · exact Or.inr ⟨hp, hpred⟩
    · simp only [filter_players, if_neg h, ih, List.mem_cons]
      constructor
      · rintro ⟨hp, hpred⟩
        exact ⟨Or.inr hp, hpred⟩
      · rintro ⟨rfl | hp, hpred⟩
        · exact absurd hpred h
        · exact ⟨hp, hpred⟩

theorem filter_players_eq_filter (l : List StatRow) (pat : String) :
    filter_players l pat = l.filter (fun p => re_search_ci pat p.player) := by
  induction l with
  | nil => rfl
  | cons q qs ih =>
    by_cases h : re_search_ci pat q.player = true
    · simp [filter_players, h, ih, List.filter_cons]
    · simp [filter_players, h, ih, List.filter_cons]

theorem overallKey_eq_sum (p : StatRow) (a b c d e : ℚ)
    (h1 : pyFloat p.points = some a)
    (h2 : pyFloat p.field_goal_percentage = some b)
    (h3 : pyFloat p.three_point_percentage = some c)
    (h4 : pyFloat p.rebounds = some d)
    (h5 : pyFloat p.assists = some e) :
    overallKey p = some (a + b + c + d + e) := by
  simp [overallKey, h1, h2, h3, h4, h5, qadd_eq_add]

/-! ## Claim theorems -/

/-- C1: the claim says ranking on fewer than 3 remaining players must fail
with an explicit insufficient-data error and never with an out-of-range
access.  The code does the opposite: on 0, 1 or 2 players `calculate_mvp`
reaches `sorted_players_by_overall[0]`/`[1]`/`[2]` unguarded and raises
`IndexError` — an out-of-bounds failure, with no insufficient-data error
anywhere in the program. -/
theorem calculate_mvp_short_input_index_error :
    calculate_mvp [] 5 = .error .indexError ∧
    calculate_mvp [rowA] 5 = .error .indexError ∧
    calculate_mvp [rowA, rowB] 5 = .error .indexError :=
  ⟨rfl, rfl, rfl⟩

/-- C2: the claim says every raw row with at least nine positional fields
yields a Player with no out-of-range access, and shorter rows are skipped.
The code guards only `len(columns) < 9` but then reads `columns[9]`,
`columns[13]` and `columns[14]`: a row with exactly nine fields passes the
guard and raises `IndexError`.  Rows with fewer than nine fields are indeed
skipped, and rows with at least fifteen fields yield a stat dictionary. -/
theorem get_player_stats_field_count :
    get_player_stats [rawNine] = .error .indexError ∧
    get_player_stats [rawEight] = .ok [] ∧
    get_player_stats [rawFull] = .ok [statFull] :=
  ⟨rfl, rfl, rfl⟩

/-- C3: the claim says a row whose numeric field fails to parse is skipped
and never reaches the ranking engine.  The code performs no numeric parsing
during extraction: the row with points `"abc"` is retained in the working
set, and when it reaches `calculate_mvp` the `float()` call inside the sort
key raises a fatal `ValueError`. -/
theorem unparsable_row_retained_and_fatal :
    get_player_stats [rawBad] = .ok [statBad] ∧
    pyFloat statBad.points = none ∧
    calculate_mvp [statBad, rowA, rowB] 5 = .error .valueError :=
  ⟨rfl, rfl, rfl⟩

/-- C6: on the spec's three-player example with `top_count = 2` the engine
returns `top_by_points = [A, B]`, the overall scores are A = 135, B = 150,
C = 98, and best/second/third are B, A, C. -/
theorem example_three_player_ranking :
    top_by_points [rowA, rowB, rowC] 2 = .ok [rowA, rowB] ∧
    overallKey rowA = some 135 ∧
    overallKey rowB = some 150 ∧
    overallKey rowC = some 98 ∧
    calculate_mvp [rowA, rowB, rowC] 2 = .ok ([rowA, rowB], rowB, rowA, rowC) :=
  ⟨rfl, by decide, by decide, by decide, rfl⟩

/-- C7: the filter stage returns exactly the players whose name contains an
unanchored, case-insensitive occurrence of the (literal) pattern; in
particular `"KING"` and `"king"` both match the player named
"LeBron King". -/
theorem filter_players_case_insensitive_search :
    (∀ (l : List StatRow) (pat : String) (p : StatRow),
        p ∈ filter_players l pat ↔
          p ∈ l ∧ ∃ u v, strLower p.player.data = u ++ strLower pat.data ++ v) ∧
    re_search_ci "KING" "LeBron King" = true ∧
    re_search_ci "king" "LeBron King" = true ∧
    filter_players [lebron] "KING" = [lebron] ∧
    filter_players [lebron] "king" = [lebron] := by
  refine ⟨?_, by decide, by decide, by decide, by decide⟩
  intro l pat p
  rw [mem_filter_players, re_search_ci_iff]

/-- C8: filtering with an empty pattern is the identity, both through
`filter_players` itself (the empty pattern matches every name) and through
the `__main__` guard that skips filtering on an empty pattern. -/
theorem filter_empty_pattern_identity :
    (∀ l : List StatRow, filter_players l "" = l) ∧
    (∀ l : List StatRow, main_filter_stage l "" = l) := by
  have h : ∀ l : List StatRow, filter_players l "" = l := by
    intro l
    induction l with
    | nil => rfl
    | cons p ps ih =>
      have hm : re_search_ci "" p.player = true := searchSub_nil_pat _
      simp [filter_players, hm, ih]
  exact ⟨h, fun l => by simp [main_filter_stage]⟩

/-- C5: for a player sequence whose points fields parse to the values
`kp`, `top_by_points` is exactly the stable descending sort by points
truncated to `top_count`: the sorted list is a permutation of the input,
pairwise descending in `kp`, and stable (players of any fixed points value
keep their original relative order); the truncation is `List.take`; and it
is the same list `calculate_mvp` returns as its first component. -/
theorem top_by_points_spec (l : List StatRow) (n : Nat) (kp : StatRow → ℚ)
    (hp : ∀ p ∈ l, pyFloat p.points = some (kp p)) :
    top_by_points l n = .ok ((sortDesc kp l).take n) ∧
    List.Perm (sortDesc kp l) l ∧
    (sortDesc kp l).Pairwise (fun a b => kp b ≤ kp a) ∧
    (∀ c : ℚ, (sortDesc kp l).filter (fun p => decide (kp p = c)) =
      l.filter (fun p => decide (kp p = c))) ∧
    (∀ (tp : List StatRow) (b s t : StatRow),
      calculate_mvp l n = .ok (tp, b, s, t) → tp = (sortDesc kp l).take n) := by
  have hs : sortedByKey (fun p => pyFloat p.points) l = .ok (sortDesc kp l) :=
    sortedByKey_ok_of_forall _ kp hp
  refine ⟨?_, sortDesc_perm kp l, sortDesc_pairwise kp l, sortDesc_filter kp l, ?_⟩
  · unfold top_by_points
    rw [hs]
    rfl
  · intro tp b s t h
    unfold calculate_mvp at h
    rw [hs] at h
    cases hov : sortedByKey overallKey l with
    | error e =>
      rw [hov] at h
      simp at h
    | ok r =>
      rw [hov] at h
      rcases r with _ | ⟨b', r⟩
      · simp at h
      rcases r with _ | ⟨s', r⟩
      · simp at h
      rcases r with _ | ⟨t', r⟩
      · simp at h
      simp only [Except.ok.injEq, Prod.mk.injEq] at h
      exact h.1.symm

/-- C5 witness: the theorem applied to the concrete three-player example. -/
theorem top_by_points_spec_witness :
    top_by_points [rowA, rowB, rowC] 2 =
      .ok ((sortDesc kptsW [rowA, rowB, rowC]).take 2) :=
  (top_by_points_spec [rowA, rowB, rowC] 2 kptsW (by decide)).1

/-- C4: for a player sequence whose five numeric fields parse to the values
`f₁ … f₅`, and `ks` the per-player unweighted sum of those five values, the
overall ranking is the stable descending sort by `ks` — a permutation of
the input, pairwise descending, with ties kept in original order — and when
at least three players are present `calculate_mvp` succeeds and returns the
1st, 2nd and 3rd entries of that ranking as best/second/third place. -/
theorem calculate_mvp_overall_ranking (l : List StatRow) (n : Nat)
    (f₁ f₂ f₃ f₄ f₅ ks : StatRow → ℚ)
    (h1 : ∀ p ∈ l, pyFloat p.points = some (f₁ p))
    (h2 : ∀ p ∈ l, pyFloat p.field_goal_percentage = some (f₂ p))
    (h3 : ∀ p ∈ l, pyFloat p.three_point_percentage = some (f₃ p))
    (h4 : ∀ p ∈ l, pyFloat p.rebounds = some (f₄ p))
    (h5 : ∀ p ∈ l, pyFloat p.assists = some (f₅ p))
    (hks : ∀ p ∈ l, ks p = f₁ p + f₂ p + f₃ p + f₄ p + f₅ p)
    (hlen : 3 ≤ l.length) :
    ∃ b s t rest,
      sortDesc ks l = b :: s :: t :: rest ∧
      calculate_mvp l n = .ok ((sortDesc f₁ l).take n, b, s, t) ∧
      List.Perm (sortDesc ks l) l ∧
      (sortDesc ks l).Pairwise (fun p q => ks q ≤ ks p) ∧
      (∀ c : ℚ, (sortDesc ks l).filter (fun p => decide (ks p = c)) =
        l.filter (fun p => decide (ks p = c))) := by
  have hov : ∀ p ∈ l, overallKey p = some (ks p) := by
    intro p hp
    rw [hks p hp]
    exact overallKey_eq_sum p _ _ _ _ _ (h1 p hp) (h2 p hp) (h3 p hp) (h4 p hp) (h5 p hp)
  have hsp : sortedByKey (fun p => pyFloat p.points) l = .ok (sortDesc f₁ l) :=
    sortedByKey_ok_of_forall _ f₁ h1
  have hso : sortedByKey overallKey l = .ok (sortDesc ks l) :=
    sortedByKey_ok_of_forall _ ks hov
  have hlen' : 3 ≤ (sortDesc ks l).length := by
    rw [(sortDesc_perm ks l).length_eq]
    exact hlen
  obtain ⟨b, s, t, rest, hr⟩ :
      ∃ b s t rest, sortDesc ks l = b :: s :: t :: rest := by
    rcases hl : sortDesc ks l with _ | ⟨b, _ | ⟨s, _ | ⟨t, rest⟩⟩⟩
    · rw [hl] at hlen'; simp at hlen'
    · rw [hl] at hlen'; simp at hlen'
    · rw [hl] at hlen'; simp at hlen'
    · exact ⟨b, s, t, rest, rfl⟩
  refine ⟨b, s, t, rest, hr, ?_, sortDesc_perm ks l, sortDesc_pairwise ks l,
    sortDesc_filter ks l⟩
  unfold calculate_mvp
  rw [hsp, hso, hr]

/-- C4 witness: the theorem applied to the concrete three-player example,
with the parsed-value functions instantiated by the parses themselves. -/
theorem calculate_mvp_overall_ranking_witness :
    ∃ b s t rest,
      sortDesc koverW [rowA, rowB, rowC] = b :: s :: t :: rest ∧
      calculate_mvp [rowA, rowB, rowC] 2 =
        .ok ((sortDesc kptsW [rowA, rowB, rowC]).take 2, b, s, t) ∧
      List.Perm (sortDesc koverW [rowA, rowB, rowC]) [rowA, rowB, rowC] ∧
      (sortDesc koverW [rowA, rowB, rowC]).Pairwise (fun p q => koverW q ≤ koverW p) ∧
      (∀ c : ℚ, (sortDesc koverW [rowA, rowB, rowC]).filter
          (fun p => decide (koverW p = c)) =
        [rowA, rowB, rowC].filter (fun p => decide (koverW p = c))) :=
  calculate_mvp_overall_ranking [rowA, rowB, rowC] 2 kptsW kfgW ktpW krebW kastW koverW
    (by decide) (by decide) (by decide) (by decide) (by decide)
    (by
      intro p hp
      fin_cases hp
      · show (135 : ℚ) = 30 + 50 + 40 + 10 + 5
        norm_num
      · show (150 : ℚ) = 25 + 60 + 45 + 12 + 8
        norm_num
      · show (98 : ℚ) = 20 + 40 + 30 + 5 + 3
        norm_num)
    (by decide)

/-- C9: when all parsed points values are pairwise distinct, reversing the
input sequence leaves `top_by_points` unchanged — in fact the returned list
is identical, so in particular the set of returned players is the same. -/
theorem top_by_points_reverse_invariant (l : List StatRow) (n : Nat)
    (kp : StatRow → ℚ)
    (hp : ∀ p ∈ l, pyFloat p.points = some (kp p))
    (hd : l.Pairwise (fun a b => kp a ≠ kp b)) :
    ∃ t₁ t₂, top_by_points l n = .ok t₁ ∧ top_by_points l.reverse n = .ok t₂ ∧
      t₂ = t₁ ∧ (∀ p, p ∈ t₂ ↔ p ∈ t₁) := by
  have hp' : ∀ p ∈ l.reverse, pyFloat p.points = some (kp p) :=
    fun p hmem => hp p (List.mem_reverse.mp hmem)
  have h1 : sortedByKey (fun p => pyFloat p.points) l = .ok (sortDesc kp l) :=
    sortedByKey_ok_of_forall _ kp hp
  have h2 : sortedByKey (fun p => pyFloat p.points) l.reverse =
      .ok (sortDesc kp l.reverse) :=
    sortedByKey_ok_of_forall _ kp hp'
  have hne : ∀ {x y : StatRow}, kp x ≠ kp y → kp y ≠ kp x := fun h => Ne.symm h
  have hdrev : l.reverse.Pairwise (fun a b => kp a ≠ kp b) :=
    ((l.reverse_perm.pairwise_iff hne).mpr hd)
  have heq : sortDesc kp l.reverse = sortDesc kp l :=
    sortDesc_eq_of_perm kp l.reverse_perm hdrev
  refine ⟨(sortDesc kp l).take n, (sortDesc kp l.reverse).take n, ?_, ?_, ?_, ?_⟩
  · unfold top_by_points
    rw [h1]
    rfl
  · unfold top_by_points
    rw [h2]
    rfl
  · rw [heq]
  · intro p
    rw [heq]

/-- C9 witness: the theorem applied to the three-player example, whose
points values 30, 25, 20 are pairwise distinct. -/
theorem top_by_points_reverse_invariant_witness :
    ∃ t₁ t₂, top_by_points [rowA, rowB, rowC] 2 = .ok t₁ ∧
      top_by_points [rowA, rowB, rowC].reverse 2 = .ok t₂ ∧
      t₂ = t₁ ∧ (∀ p, p ∈ t₂ ↔ p ∈ t₁) :=
  top_by_points_reverse_invariant [rowA, rowB, rowC] 2 kptsW (by decide) (by decide)

/-- C10: the pipeline never mutates player records: `filter_players`
returns an order-preserving subsequence of its input consisting of the
original records, and every record `calculate_mvp` returns — in the
top-by-points list and as best/second/third — is one of the records of the
input sequence, unchanged. -/
theorem pipeline_preserves_records (l : List StatRow) (pat : String) (n : Nat)
    (tp : List StatRow) (b s t : StatRow)
    (h : calculate_mvp l n = .ok (tp, b, s, t)) :
    List.Sublist (filter_players l pat) l ∧
    (∀ p ∈ tp, p ∈ l) ∧ b ∈ l ∧ s ∈ l ∧ t ∈ l := by
  refine ⟨?_, ?_⟩
  · rw [filter_players_eq_filter]
    exact List.filter_sublist l
  · unfold calculate_mvp at h
    cases hsp : sortedByKey (fun p => pyFloat p.points) l with
    | error e =>
      rw [hsp] at h
      simp at h
    | ok sp =>
      rw [hsp] at h
      cases hso : sortedByKey overallKey l with
      | error e =>
        rw [hso] at h
        simp at h
      | ok so =>
        rw [hso] at h
        rcases so with _ | ⟨b', so⟩
        · simp at h
        rcases so with _ | ⟨s', so⟩
        · simp at h
        rcases so with _ | ⟨t', so⟩
        · simp at h
        simp only [Except.ok.injEq, Prod.mk.injEq] at h
        obtain ⟨htp, hb, hs, ht⟩ := h
        subst htp hb hs ht
        have hmem := sortedByKey_ok_mem _ hso
        refine ⟨?_, hmem b' (by simp), hmem s' (by simp), hmem t' (by simp)⟩
        intro p hptake
        exact sortedByKey_ok_mem _ hsp p (List.take_subset n sp hptake)

/-- C10 witness: the theorem applied to the concrete three-player run. -/
theorem pipeline_preserves_records_witness :
    List.Sublist (filter_players [rowA, rowB, rowC] "b") [rowA, rowB, rowC] ∧
    (∀ p ∈ [rowA, rowB], p ∈ [rowA, rowB, rowC]) ∧
    rowB ∈ [rowA, rowB, rowC] ∧ rowA ∈ [rowA, rowB, rowC] ∧
    rowC ∈ [rowA, rowB, rowC] :=
  pipeline_preserves_records [rowA, rowB, rowC] "b" 2 [rowA, rowB] rowB rowA rowC rfl
